import Mathlib

/-!
# A process supervisor (`src/main.c`)

Shallow embedding of the supervisor's process table and of the functions
`start_process`, `restart_process`, `handle_sigchld`, `handle_sigint`,
`parse_command`, `parse_processes` and `main`.

* The global `processes` array together with `process_count` is a
  `List Process`; `process_count` is its length.
* Everything the program does to the outside world (fork, sleep, kill, the
  log lines, perror, free) is appended to a trace, oldest event first; how a
  call ends (return, `exit`, the forked child) is its `Outcome`.
* The results of `fork()` are given by an oracle `fork : Nat → Int`, the
  `n`-th call returning `fork n`; the results of the successive `waitpid`
  calls of one `handle_sigchld` invocation are given as a list.
* `int` is 32 bits wide, two's complement; arithmetic on the `retries` field
  wraps, and the argument of `sleep` is converted to `unsigned int`.
* `malloc`, `realloc` and `sigaction` are taken to succeed.
-/

namespace Supervisor

/-! ## Constants -/

/-- The macro `BACKOFF_TIME` (seconds). -/
def BACKOFF_TIME : Int := 2

/-- The value of `EXIT_SUCCESS` in `<stdlib.h>`. -/
def EXIT_SUCCESS : Int := 0

/-- The value of `EXIT_FAILURE` in `<stdlib.h>`. -/
def EXIT_FAILURE : Int := 1

/-- The signal number of `SIGTERM` in `<signal.h>`. -/
def SIGTERM : Int := 15

/-- The largest value of a C `int`. -/
def INT_MAX : Int := 2147483647

/-! ## Machine integers -/

/-- Result of an `int` operation whose mathematical value is `x`: reduced
into `[-2^31, 2^31)` modulo `2^32`. -/
def wrapInt (x : Int) : Int := (x + 2147483648) % 4294967296 - 2147483648

/-- Conversion of an `int` to `unsigned int` (the parameter type of `sleep`). -/
def toUnsigned (x : Int) : Nat := (x % 4294967296).toNat

/-! ## Data model -/

/-- The struct `Process`. `args` is the NULL-terminated vector built by
`parse_command`, without its terminator. -/
structure Process where
  pid : Int
  args : List String
  retries : Int
  deriving DecidableEq, Repr

/-- The messages passed to `log_message` (the timestamp prefix is left out).
The executable is `args[0]`, which is `none` when the vector is empty and
`args[0]` is the NULL terminator. -/
inductive LogMsg where
  | started (index : Nat) (executable : Option String) (pid : Int)
  | restarting (index : Nat) (executable : Option String) (retry : Int)
  | terminated (index : Nat) (executable : Option String) (pid : Int)
  | sigint
  deriving DecidableEq, Repr

/-- What `printf` writes for a `%s` argument (glibc prints `(null)` for NULL). -/
def showExe : Option String → String
  | some e => e
  | none => "(null)"

/-- The text of a log line, after the format strings of the source. -/
def LogMsg.render : LogMsg → String
  | .started i e p =>
      "Started process " ++ toString i ++ " (" ++ showExe e ++ ") with PID " ++ toString p
  | .restarting i e n =>
      "Restarting process " ++ toString i ++ " (" ++ showExe e ++ "), retry " ++ toString n
  | .terminated i e p =>
      "Process " ++ toString i ++ " (" ++ showExe e ++ ") with PID " ++ toString p
        ++ " terminated unexpectedly"
  | .sigint => "Received SIGINT, terminating all processes"

/-- Observable effects of the supervisor. -/
inductive Event where
  | fork (result : Int)
  | log (msg : LogMsg)
  | sleep (seconds : Nat)
  | kill (pid : Int) (sig : Int)
  | perror (msg : String)
  | execvp (file : Option String) (args : List String)
  | free_args (index : Nat)
  | free_processes
  | usage (prog : Option String)
  deriving DecidableEq, Repr

/-- The supervisor's state: the process table, the effects so far (oldest
first) and the number of `fork()` calls made so far. -/
structure State where
  processes : List Process
  trace : List Event
  forks : Nat
  deriving DecidableEq, Repr

/-- The global `process_count`. -/
def State.process_count (s : State) : Nat := s.processes.length

/-- Appends one effect to the trace. -/
def State.emit (s : State) (e : Event) : State :=
  { s with trace := s.trace ++ [e] }

/-- How a call ends. -/
inductive Outcome where
  /-- The function returned to its caller. -/
  | returned (s : State)
  /-- The call `exit(status)` was made. -/
  | exited (status : Int) (s : State)
  /-- The call is in the forked child, which leaves the supervisor's code
  for good: `execvp` replaces the image, or fails and the child exits with
  `EXIT_FAILURE`. -/
  | child (s : State)
  /-- An access outside the process table. -/
  | fault
  deriving DecidableEq, Repr

/-- The state an outcome carries. -/
def Outcome.state? : Outcome → Option State
  | .returned s => some s
  | .exited _ s => some s
  | .child s => some s
  | .fault => none

/-- The trace of an outcome (empty for `fault`). -/
def Outcome.trace : Outcome → List Event
  | .returned s => s.trace
  | .exited _ s => s.trace
  | .child s => s.trace
  | .fault => []

/-! ## Launcher and restart policy -/

/-- The function `start_process(index)`. -/
def start_process (fork : Nat → Int) (s : State) (index : Nat) : Outcome :=
  match s.processes[index]? with
  | none => .fault
  | some p =>
    let pid := fork s.forks
    let s1 : State := { s with trace := s.trace ++ [.fork pid], forks := s.forks + 1 }
    if pid < 0 then
      .exited EXIT_FAILURE (s1.emit (.perror "fork error"))
    else if pid = 0 then
      .child (s1.emit (.execvp p.args.head? p.args))
    else
      let s2 : State := { s1 with processes := s1.processes.set index { p with pid := pid } }
      let s3 := s2.emit (.log (.started index p.args.head? pid))
      .returned { s3 with processes := s3.processes.set index { p with pid := pid, retries := 0 } }

/-- The function `restart_process(index)`. -/
def restart_process (fork : Nat → Int) (s : State) (index : Nat) : Outcome :=
  match s.processes[index]? with
  | none => .fault
  | some p =>
    let s1 := s.emit (.sleep (toUnsigned (wrapInt (BACKOFF_TIME * wrapInt (p.retries + 1)))))
    let s2 := s1.emit (.log (.restarting index p.args.head? (wrapInt (p.retries + 1))))
    let s3 : State :=
      { s2 with processes := s2.processes.set index { p with retries := wrapInt (p.retries + 1) } }
    start_process fork s3 index

/-! ## Termination monitor -/

/-- The macro `WIFEXITED` of `<sys/wait.h>`: the low seven bits are zero. -/
def WIFEXITED (status : Int) : Bool := status % 128 == 0

/-- The macro `WIFSIGNALED` of `<sys/wait.h>`:
`((signed char) ((status & 0x7f) + 1) >> 1) > 0`. -/
def WIFSIGNALED (status : Int) : Bool := 1 ≤ status % 128 && status % 128 ≤ 126

/-- The `for` loop of `handle_sigchld` for one reaped `pid`, from index `i`
with `n` iterations left. -/
def sigchld_scan (fork : Nat → Int) (s : State) (pid status : Int) : Nat → Nat → Outcome
  | 0, _ => .returned s
  | n + 1, i =>
    match s.processes[i]? with
    | none => .fault
    | some p =>
      if p.pid = pid then
        if WIFEXITED status || WIFSIGNALED status then
          restart_process fork (s.emit (.log (.terminated i p.args.head? pid))) i
        else
          .returned s
      else
        sigchld_scan fork s pid status n (i + 1)

/-- One iteration of the `while` loop of `handle_sigchld`: the handling of
one reaped `(pid, status)`. -/
def reap (fork : Nat → Int) (s : State) (pid status : Int) : Outcome :=
  sigchld_scan fork s pid status s.process_count 0

/-- The function `handle_sigchld`. `waits` lists what the successive
`waitpid(-1, &status, WNOHANG)` calls return, as `(pid, status)`; when the
list is used up the next call returns no child. -/
def handle_sigchld (fork : Nat → Int) (s : State) : List (Int × Int) → Outcome
  | [] => .returned s
  | (pid, status) :: waits =>
    if 0 < pid then
      match reap fork s pid status with
      | .returned s1 => handle_sigchld fork s1 waits
      | o => o
    else
      .returned s

/-- The `(pid, status)` pairs one `handle_sigchld` invocation takes from
`waitpid` with `pid > 0`, before the first result that ends the loop. -/
def reaped (waits : List (Int × Int)) : List (Int × Int) :=
  waits.takeWhile (fun w => decide (0 < w.1))

/-! ## Shutdown coordinator -/

/-- The first `for` loop of `handle_sigint`, from index `i` with `n`
iterations left: `kill(processes[i].pid, SIGTERM)` for each `pid > 0`. -/
def sigint_kill (s : State) : Nat → Nat → Outcome
  | 0, _ => .returned s
  | n + 1, i =>
    match s.processes[i]? with
    | none => .fault
    | some p =>
      if 0 < p.pid then
        sigint_kill (s.emit (.kill p.pid SIGTERM)) n (i + 1)
      else
        sigint_kill s n (i + 1)

/-- The second `for` loop of `handle_sigint`: `free(processes[i].args)`.
The `args` pointer of a record is never NULL (`parse_command` exits on a
failed allocation), so the test `if (processes[i].args)` holds. -/
def sigint_free (s : State) : Nat → Nat → Outcome
  | 0, _ => .returned s
  | n + 1, i =>
    match s.processes[i]? with
    | none => .fault
    | some _ => sigint_free (s.emit (.free_args i)) n (i + 1)

/-- The function `handle_sigint`. -/
def handle_sigint (s : State) : Outcome :=
  let s1 := s.emit (.log .sigint)
  match sigint_kill s1 s1.process_count 0 with
  | .returned s2 =>
    match sigint_free s2 s2.process_count 0 with
    | .returned s3 => .exited EXIT_SUCCESS (s3.emit .free_processes)
    | o => o
  | o => o

/-! ## Command parsing -/

/-- The tokens that the successive calls `strtok(cmd, ";")`,
`strtok(NULL, ";")`, ... return before NULL: the maximal runs of characters
other than `;`, in order. `acc` is the token being read, reversed. -/
def strtok_tokens : List Char → List Char → List String
  | acc, [] => if acc = [] then [] else [String.mk acc.reverse]
  | acc, c :: cs =>
    if c = ';' then
      if acc = [] then strtok_tokens [] cs
      else String.mk acc.reverse :: strtok_tokens [] cs
    else strtok_tokens (c :: acc) cs

/-- The local variables of `parse_command`. `args` holds the entries
written so far, `args[0 .. arg_count)`. -/
structure ParseState where
  max_args : Nat
  arg_count : Nat
  args : List String
  deriving DecidableEq, Repr

/-- The body of the `while (token != NULL)` loop of `parse_command`. -/
def parse_command_step (st : ParseState) (token : String) : ParseState :=
  let max_args := if st.arg_count ≥ st.max_args then st.max_args * 2 else st.max_args
  { max_args := max_args, arg_count := st.arg_count + 1, args := st.args ++ [token] }

/-- The locals of `parse_command(cmd)` when the loop has ended, that is when
`args[arg_count] = NULL` is executed. -/
def parse_command_locals (cmd : String) : ParseState :=
  (strtok_tokens [] cmd.toList).foldl parse_command_step
    { max_args := 10, arg_count := 0, args := [] }

/-- The function `parse_command(cmd)`: the vector it returns. -/
def parse_command (cmd : String) : List String :=
  (parse_command_locals cmd).args

/-- Whether an index of the `args` array lies inside an allocation of
`max_args` entries. -/
def inCapacity (index max_args : Nat) : Prop := index < max_args

instance (index max_args : Nat) : Decidable (inCapacity index max_args) :=
  inferInstanceAs (Decidable (index < max_args))

/-! ## Startup -/

/-- The `for` loop of `parse_processes`, over `argv[1 .. argc)`. -/
def parse_processes_loop (s : State) : List String → State
  | [] => s
  | a :: rest =>
    parse_processes_loop
      { s with processes := s.processes ++ [{ pid := -1, args := parse_command a, retries := 0 }] }
      rest

/-- The function `parse_processes(argc, argv)`. -/
def parse_processes (s : State) (argv : List String) : State :=
  parse_processes_loop s argv.tail

/-- The start loop of `main`, from index `i` with `n` iterations left. -/
def start_loop (fork : Nat → Int) (s : State) : Nat → Nat → Outcome
  | 0, _ => .returned s
  | n + 1, i =>
    match start_process fork s i with
    | .returned s1 => start_loop fork s1 n (i + 1)
    | o => o

/-- The state in which `main` begins: no record, nothing done. -/
def State.initial : State := { processes := [], trace := [], forks := 0 }

/-- The function `main(argc, argv)` up to the `pause()` loop: `returned s`
is the state in which the supervisor starts waiting for signals. -/
def main (fork : Nat → Int) (argv : List String) : Outcome :=
  if argv.length < 2 then
    .exited EXIT_FAILURE (State.initial.emit (.usage argv.head?))
  else
    let s := parse_processes State.initial argv
    start_loop fork s s.process_count 0

/-! ## Sample tables -/

/-- A table of two records, none restarted so far. -/
def table2 : State :=
  { processes := [{ pid := -1, args := ["sleep", "60"], retries := 0 },
                  { pid := 41, args := ["cat"], retries := 0 }],
    trace := [], forks := 0 }

/-- A table whose second record holds a retry count of 3. -/
def table3 : State :=
  { processes := [{ pid := 40, args := ["sleep", "60"], retries := 0 },
                  { pid := 41, args := ["cat"], retries := 3 }],
    trace := [], forks := 0 }

/-- A table whose record holds the largest `int` as retry count. -/
def tableMax : State :=
  { processes := [{ pid := 41, args := ["cat"], retries := 2147483647 }],
    trace := [], forks := 0 }

/-! ## Reachable outcomes -/

/-- Holds of a sleep of exactly `BACKOFF_TIME = 2` seconds, of a restart log
entry with retry number 1, and of every effect that is neither a sleep nor a
restart log entry. -/
def Event.firstRetry : Event → Bool
  | .sleep n => n == 2
  | .log (.restarting _ _ n) => n == 1
  | _ => true

/-- What the supervisor started with `argv` can reach: the table built by
`parse_processes`, then calls of `start_process` on valid indices (the start
loop of `main`) and invocations of `handle_sigchld`, in any number and with
any `waitpid` results, each from a state in which the previous call
returned. -/
inductive Reach (fork : Nat → Int) (argv : List String) : Outcome → Prop
  | parsed : Reach fork argv (.returned (parse_processes State.initial argv))
  | start (s : State) (i : Nat) :
      Reach fork argv (.returned s) → i < s.process_count →
      Reach fork argv (start_process fork s i)
  | sigchld (s : State) (waits : List (Int × Int)) :
      Reach fork argv (.returned s) → Reach fork argv (handle_sigchld fork s waits)

/-! ## Live identities -/

/-- No two distinct indices of the table hold the same live identity
(`pid > 0`). -/
def Distinct (s : State) : Prop :=
  ∀ (i j : Nat) (p q : Process), s.processes[i]? = some p → s.processes[j]? = some q →
    0 < p.pid → p.pid = q.pid → i = j

/-- The assumption on one `fork()` made for record `index`: the result is a
positive pid different from the pid currently held by every other record. -/
def Fresh (s : State) (index : Nat) (pid : Int) : Prop :=
  0 < pid ∧ ∀ (j : Nat) (q : Process), j ≠ index → s.processes[j]? = some q → q.pid ≠ pid

/-- The assumption on `fork()` for the handling of one reaped `(pid, status)`:
if the scan restarts a record, that is the first record `i` holding `pid`,
the status being an exit or a signal, then the result of the fork is fresh
for `i`. -/
def ReapFresh (fork : Nat → Int) (s : State) (pid status : Int) : Prop :=
  ∀ (i : Nat) (p : Process), s.processes[i]? = some p → p.pid = pid →
    (∀ (k : Nat) (q : Process), k < i → s.processes[k]? = some q → q.pid ≠ pid) →
    (WIFEXITED status || WIFSIGNALED status) = true →
    Fresh s i (fork s.forks)

/-- The assumption on `fork()` along one invocation of `handle_sigchld`:
`ReapFresh` at each reaped pid, in the state in which it is handled. -/
def SigchldFresh (fork : Nat → Int) : State → List (Int × Int) → Prop
  | _, [] => True
  | s, (pid, status) :: waits =>
    0 < pid → ReapFresh fork s pid status ∧
      ∀ s1, reap fork s pid status = .returned s1 → SigchldFresh fork s1 waits

/-- What the supervisor started with `argv` can reach when every fork
returns a fresh pid: as `Reach`, each fork under the assumption `Fresh`. -/
inductive FreshReach (fork : Nat → Int) (argv : List String) : Outcome → Prop
  | parsed : FreshReach fork argv (.returned (parse_processes State.initial argv))
  | start (s : State) (i : Nat) :
      FreshReach fork argv (.returned s) → i < s.process_count →
      Fresh s i (fork s.forks) → FreshReach fork argv (start_process fork s i)
  | sigchld (s : State) (waits : List (Int × Int)) :
      FreshReach fork argv (.returned s) → SigchldFresh fork s waits →
      FreshReach fork argv (handle_sigchld fork s waits)

/-! ## Startup: the expected table and trace -/

/-- The records `post` after one successful `start_process` each, in order,
the first with the result of fork call number `f`. -/
def startedTable (fork : Nat → Int) : Nat → List Process → List Process
  | _, [] => []
  | f, p :: ps => { pid := fork f, args := p.args, retries := 0 } :: startedTable fork (f + 1) ps

/-- The effects of one successful `start_process` per record of `post`, in
order, the first for index `i` with the result of fork call number `f`: the
fork, then the log entry. -/
def startedTrace (fork : Nat → Int) : Nat → Nat → List Process → List Event
  | _, _, [] => []
  | f, i, p :: ps =>
    .fork (fork f) :: .log (.started i p.args.head? (fork f)) ::
      startedTrace fork (f + 1) (i + 1) ps

/-! ## Sample runs -/

/-- The fork oracle that hands out the pids 100, 101, 102, ... -/
def forkSeq : Nat → Int := fun n => 100 + n

/-- The fork oracle of a system that cannot create a process: every call
fails with -1. -/
def forkFail : Nat → Int := fun _ => -1

/-- Sequencing: `f` runs if the previous call returned. -/
def Outcome.andThen (o : Outcome) (f : State → Outcome) : Outcome :=
  match o with
  | .returned s => f s
  | o => o

/-- The retry numbers of the restart log entries of a trace, in order. -/
def retryNumbers : List Event → List Int
  | [] => []
  | .log (.restarting _ _ n) :: t => n :: retryNumbers t
  | _ :: t => retryNumbers t

/-- The seconds of the sleeps of a trace, in order. -/
def sleeps : List Event → List Nat
  | [] => []
  | .sleep n :: t => n :: sleeps t
  | _ :: t => sleeps t

/-- The supervisor run on the single command `true`, of which every instance
exits at once with status 0: startup, then three `handle_sigchld`
invocations, each reaping the instance started last. -/
def immediateExitRun : Outcome :=
  (((main forkSeq ["supervisor", "true"]).andThen
    (fun s => handle_sigchld forkSeq s [(100, 0), (0, 0)])).andThen
    (fun s => handle_sigchld forkSeq s [(101, 0), (0, 0)])).andThen
    (fun s => handle_sigchld forkSeq s [(102, 0), (0, 0)])

/-- A command line with two commands. -/
def argv2 : List String := ["supervisor", "sleep;60", "cat"]

/-- The state after the first `start_process` of the run on `argv2`. -/
def started2a : State :=
  { processes := [{ pid := 100, args := ["sleep", "60"], retries := 0 },
                  { pid := -1, args := ["cat"], retries := 0 }],
    trace := [.fork 100, .log (.started 0 (some "sleep") 100)], forks := 1 }

/-- The state after the start loop of the run on `argv2`. -/
def started2 : State :=
  { processes := [{ pid := 100, args := ["sleep", "60"], retries := 0 },
                  { pid := 101, args := ["cat"], retries := 0 }],
    trace := [.fork 100, .log (.started 0 (some "sleep") 100),
              .fork 101, .log (.started 1 (some "cat") 101)], forks := 2 }

/-! ## The launcher -/

theorem start_process_returned (fork : Nat → Int) (s : State) (i : Nat) (p : Process)
    (hp : s.processes[i]? = some p) (hpos : 0 < fork s.forks) :
    start_process fork s i = .returned
      { processes := s.processes.set i { pid := fork s.forks, args := p.args, retries := 0 },
        trace := s.trace ++ [.fork (fork s.forks), .log (.started i p.args.head? (fork s.forks))],
        forks := s.forks + 1 } := by
  have h1 : ¬ fork s.forks < 0 := by omega
  have h2 : ¬ fork s.forks = 0 := by omega
  simp [start_process, hp, h1, h2, State.emit]

theorem start_process_failed (fork : Nat → Int) (s : State) (i : Nat) (p : Process)
    (hp : s.processes[i]? = some p) (hneg : fork s.forks < 0) :
    start_process fork s i = .exited EXIT_FAILURE
      { processes := s.processes,
        trace := s.trace ++ [.fork (fork s.forks), .perror "fork error"],
        forks := s.forks + 1 } := by
  simp [start_process, hp, hneg, State.emit]

theorem start_process_child (fork : Nat → Int) (s : State) (i : Nat) (p : Process)
    (hp : s.processes[i]? = some p) (hz : fork s.forks = 0) :
    start_process fork s i = .child
      { processes := s.processes,
        trace := s.trace ++ [.fork 0, .execvp p.args.head? p.args],
        forks := s.forks + 1 } := by
  simp [start_process, hp, hz, State.emit]

/-- C4. For a valid index `i` and a positive fork result, `start_process(i)`
returns with record `i` holding the new pid, retries 0 and its old args,
every other record and the table length unchanged, and the trace extended by
the fork and exactly one log entry, "Started process i (args[0]) with PID p". -/
theorem start_process_frame (fork : Nat → Int) (s : State) (i : Nat) (p : Process)
    (hp : s.processes[i]? = some p) (hpos : 0 < fork s.forks) :
    ∃ s1, start_process fork s i = .returned s1 ∧
      s1.processes[i]? = some { pid := fork s.forks, args := p.args, retries := 0 } ∧
      (∀ j, j ≠ i → s1.processes[j]? = s.processes[j]?) ∧
      s1.processes.length = s.processes.length ∧
      s1.trace = s.trace ++
        [.fork (fork s.forks), .log (.started i p.args.head? (fork s.forks))] ∧
      (LogMsg.started i p.args.head? (fork s.forks)).render =
        "Started process " ++ toString i ++ " (" ++ showExe p.args.head? ++ ") with PID "
          ++ toString (fork s.forks) := by
  have hi : i < s.processes.length := by
    rcases List.getElem?_eq_some_iff.mp hp with ⟨h, _⟩
    exact h
  refine ⟨_, start_process_returned fork s i p hp hpos, ?_, ?_, ?_, rfl, rfl⟩
  · simp [List.getElem?_set, hi]
  · intro j hj
    have : ¬ i = j := fun h => hj h.symm
    simp [List.getElem?_set, this]
  · simp

theorem start_process_frame_witness :
    ∃ s1, start_process (fun _ => 57) table2 0 = .returned s1 ∧
      s1.processes[0]? = some { pid := 57, args := ["sleep", "60"], retries := 0 } ∧
      (∀ j, j ≠ 0 → s1.processes[j]? = table2.processes[j]?) ∧
      s1.processes.length = table2.processes.length ∧
      s1.trace = table2.trace ++ [.fork 57, .log (.started 0 (some "sleep") 57)] ∧
      (LogMsg.started 0 (some "sleep") 57).render =
        "Started process " ++ toString 0 ++ " (" ++ showExe (some "sleep") ++ ") with PID "
          ++ toString (57 : Int) :=
  start_process_frame (fun _ => 57) table2 0 { pid := -1, args := ["sleep", "60"], retries := 0 }
    (by decide) (by decide)

/-! ## The restart policy -/

theorem wrapInt_succ (r : Int) (h0 : 0 ≤ r) (h1 : r < INT_MAX) : wrapInt (r + 1) = r + 1 := by
  unfold INT_MAX at h1
  unfold wrapInt
  omega

theorem sleep_arg (r : Int) (h0 : 0 ≤ r) (h1 : r < INT_MAX) :
    toUnsigned (wrapInt (BACKOFF_TIME * wrapInt (r + 1))) = (2 * (r + 1)).toNat := by
  rw [wrapInt_succ r h0 h1]
  unfold INT_MAX at h1
  unfold toUnsigned wrapInt BACKOFF_TIME
  omega

theorem start_process_trace (fork : Nat → Int) (s : State) (i : Nat)
    (hi : i < s.processes.length) :
    ∃ rest, (start_process fork s i).trace = s.trace ++ rest := by
  obtain ⟨p, hp⟩ : ∃ p, s.processes[i]? = some p := ⟨s.processes[i], by simp [hi]⟩
  rcases lt_trichotomy (fork s.forks) 0 with h | h | h
  · exact ⟨_, by rw [start_process_failed fork s i p hp h]; rfl⟩
  · exact ⟨_, by rw [start_process_child fork s i p hp h]; rfl⟩
  · exact ⟨_, by rw [start_process_returned fork s i p hp h]; rfl⟩

theorem restart_process_eq (fork : Nat → Int) (s : State) (i : Nat) (p : Process)
    (hp : s.processes[i]? = some p) :
    restart_process fork s i = start_process fork
      { processes := s.processes.set i { p with retries := wrapInt (p.retries + 1) },
        trace := s.trace ++
          [.sleep (toUnsigned (wrapInt (BACKOFF_TIME * wrapInt (p.retries + 1)))),
           .log (.restarting i p.args.head? (wrapInt (p.retries + 1)))],
        forks := s.forks } i := by
  simp [restart_process, hp, State.emit]

/-- C1 (amended). For a valid index `i` whose record holds `0 ≤ retries < INT_MAX`,
`restart_process(i)` first sleeps `2 * (retries + 1)` seconds and next logs
"Restarting process i (args[0]), retry retries + 1", both computed from the
retries held on entry; what follows (the launch) comes after these two. -/
theorem restart_process_backoff (fork : Nat → Int) (s : State) (i : Nat) (p : Process)
    (hp : s.processes[i]? = some p) (h0 : 0 ≤ p.retries) (h1 : p.retries < INT_MAX) :
    ∃ rest, (restart_process fork s i).trace =
      s.trace ++ [.sleep (2 * (p.retries + 1)).toNat,
                  .log (.restarting i p.args.head? (p.retries + 1))] ++ rest := by
  have hi : i < s.processes.length := (List.getElem?_eq_some_iff.mp hp).1
  rw [restart_process_eq fork s i p hp, sleep_arg p.retries h0 h1, wrapInt_succ p.retries h0 h1]
  exact start_process_trace fork _ i (by simpa using hi)

theorem restart_process_backoff_witness :
    ∃ rest, (restart_process (fun _ => 57) table3 1).trace =
      table3.trace ++ [.sleep 8, .log (.restarting 1 (some "cat") 4)] ++ rest :=
  restart_process_backoff (fun _ => 57) table3 1 { pid := 41, args := ["cat"], retries := 3 }
    (by decide) (by decide) (by decide)

/-- C1, as stated, fails when the record holds `retries = INT_MAX`: the
`int` sum `retries + 1` wraps to `-2147483648`, the product to 0, so the sleep
is 0 seconds and the logged retry number is negative. -/
theorem restart_process_backoff_overflow :
    (restart_process (fun _ => 57) tableMax 0).trace =
      [.sleep 0, .log (.restarting 0 (some "cat") (-2147483648)), .fork 57,
       .log (.started 0 (some "cat") 57)] ∧
    ¬ ∃ rest, (restart_process (fun _ => 57) tableMax 0).trace =
      tableMax.trace ++ [.sleep (2 * ((2147483647 : Int) + 1)).toNat,
                  .log (.restarting 0 (some "cat") (2147483647 + 1))] ++ rest := by
  constructor
  · decide
  · rintro ⟨rest, h⟩
    have h2 : (restart_process (fun _ => 57) tableMax 0).trace =
      [.sleep 0, .log (.restarting 0 (some "cat") (-2147483648)), .fork 57,
       .log (.started 0 (some "cat") 57)] := by decide
    rw [h2] at h
    simp [tableMax] at h

/-! ## The termination monitor -/

theorem sigchld_scan_unknown (fork : Nat → Int) (s : State) (pid status : Int)
    (h : ∀ p ∈ s.processes, p.pid ≠ pid) (n i : Nat) (hn : i + n ≤ s.processes.length) :
    sigchld_scan fork s pid status n i = .returned s := by
  induction n generalizing i with
  | zero => rfl
  | succ n ih =>
    have hi : i < s.processes.length := by omega
    have hne : ¬ (s.processes[i]).pid = pid := h _ (List.getElem_mem hi)
    simp only [sigchld_scan, List.getElem?_eq_getElem hi, hne, if_false]
    exact ih (i + 1) (by omega)

/-- C7. When the reaped pid is the pid of no record, the handling of that
pid returns with the state as it was: same table, no log entry, no sleep, no
fork, whatever the status; `handle_sigchld` goes on to the next `waitpid`
result from the unchanged state. -/
theorem reap_unknown_pid (fork : Nat → Int) (s : State) (pid status : Int)
    (waits : List (Int × Int)) (h : ∀ p ∈ s.processes, p.pid ≠ pid) :
    reap fork s pid status = .returned s ∧
    (0 < pid → handle_sigchld fork s ((pid, status) :: waits) = handle_sigchld fork s waits) := by
  have h1 : reap fork s pid status = .returned s :=
    sigchld_scan_unknown fork s pid status h _ 0 (by simp [State.process_count])
  refine ⟨h1, fun hpos => ?_⟩
  simp [handle_sigchld, hpos, h1]

theorem reap_unknown_pid_witness :
    reap (fun _ => 57) table3 99 9 = .returned table3 ∧
    ((0 : Int) < 99 → handle_sigchld (fun _ => 57) table3 ((99, 9) :: [(40, 0)]) =
      handle_sigchld (fun _ => 57) table3 [(40, 0)]) :=
  reap_unknown_pid (fun _ => 57) table3 99 9 [(40, 0)] (by decide)

theorem start_process_others (fork : Nat → Int) (s : State) (i : Nat)
    (hi : i < s.processes.length) :
    ∃ s1, (start_process fork s i).state? = some s1 ∧
      s1.processes.length = s.processes.length ∧
      ∀ j, j ≠ i → s1.processes[j]? = s.processes[j]? := by
  obtain ⟨p, hp⟩ : ∃ p, s.processes[i]? = some p := ⟨s.processes[i], by simp [hi]⟩
  rcases lt_trichotomy (fork s.forks) 0 with h | h | h
  · rw [start_process_failed fork s i p hp h]
    exact ⟨_, rfl, rfl, fun _ _ => rfl⟩
  · rw [start_process_child fork s i p hp h]
    exact ⟨_, rfl, rfl, fun _ _ => rfl⟩
  · rw [start_process_returned fork s i p hp h]
    refine ⟨_, rfl, by simp, fun j hj => ?_⟩
    have : ¬ i = j := fun e => hj e.symm
    simp [List.getElem?_set, this]

theorem restart_process_others (fork : Nat → Int) (s : State) (i : Nat)
    (hi : i < s.processes.length) :
    ∃ s1, (restart_process fork s i).state? = some s1 ∧
      s1.processes.length = s.processes.length ∧
      ∀ j, j ≠ i → s1.processes[j]? = s.processes[j]? := by
  obtain ⟨p, hp⟩ : ∃ p, s.processes[i]? = some p := ⟨s.processes[i], by simp [hi]⟩
  rw [restart_process_eq fork s i p hp]
  obtain ⟨s1, h1, h2, h3⟩ := start_process_others fork
    { processes := s.processes.set i { p with retries := wrapInt (p.retries + 1) },
      trace := s.trace ++
        [.sleep (toUnsigned (wrapInt (BACKOFF_TIME * wrapInt (p.retries + 1)))),
         .log (.restarting i p.args.head? (wrapInt (p.retries + 1)))],
      forks := s.forks } i (by simpa using hi)
  refine ⟨s1, h1, by simpa using h2, fun j hj => ?_⟩
  have : ¬ i = j := fun e => hj e.symm
  rw [h3 j hj]
  simp [List.getElem?_set, this]

theorem sigchld_scan_others (fork : Nat → Int) (s : State) (pid status : Int) (n i : Nat)
    (hn : i + n ≤ s.processes.length) :
    ∃ s1, (sigchld_scan fork s pid status n i).state? = some s1 ∧
      s1.processes.length = s.processes.length ∧
      ∀ (j : Nat) (r : Process), s.processes[j]? = some r → r.pid ≠ pid → s1.processes[j]? = some r := by
  induction n generalizing i with
  | zero => exact ⟨s, rfl, rfl, fun _ _ h _ => h⟩
  | succ n ih =>
    have hi : i < s.processes.length := by omega
    simp only [sigchld_scan, List.getElem?_eq_getElem hi]
    by_cases hm : (s.processes[i]).pid = pid
    · simp only [hm, if_true]
      by_cases hst : (WIFEXITED status || WIFSIGNALED status) = true
      · simp only [hst, if_true]
        obtain ⟨s1, h1, h2, h3⟩ := restart_process_others fork
          (s.emit (.log (.terminated i (s.processes[i]).args.head? pid))) i
          (by simpa [State.emit] using hi)
        refine ⟨s1, h1, by simpa [State.emit] using h2, fun j r hj hr => ?_⟩
        have hji : j ≠ i := by
          rintro rfl
          rw [List.getElem?_eq_getElem hi] at hj
          cases hj
          exact hr hm
        rw [h3 j hji]
        simpa [State.emit] using hj
      · simp only [hst]
        exact ⟨s, rfl, rfl, fun _ _ h _ => h⟩
    · simp only [hm, if_false]
      exact ih (i + 1) (by omega)

theorem handle_sigchld_others (fork : Nat → Int) (waits : List (Int × Int)) (s : State) :
    ∃ s1, (handle_sigchld fork s waits).state? = some s1 ∧
      s1.processes.length = s.processes.length ∧
      ∀ (j : Nat) (r : Process), s.processes[j]? = some r → (∀ w ∈ reaped waits, w.1 ≠ r.pid) →
        s1.processes[j]? = some r := by
  induction waits generalizing s with
  | nil => exact ⟨s, rfl, rfl, fun _ _ h _ => h⟩
  | cons w waits ih =>
    obtain ⟨pid, status⟩ := w
    by_cases hpos : 0 < pid
    · obtain ⟨s1, h1, h2, h3⟩ := sigchld_scan_others fork s pid status s.process_count 0
        (by simp [State.process_count])
      have hfr : ∀ (j : Nat) (r : Process), s.processes[j]? = some r →
          (∀ w ∈ reaped ((pid, status) :: waits), w.1 ≠ r.pid) →
          s1.processes[j]? = some r ∧ ∀ w ∈ reaped waits, w.1 ≠ r.pid := by
        intro j r hj hr
        have hr2 : ∀ w ∈ (pid, status) :: reaped waits, w.1 ≠ r.pid := by
          simpa [reaped, List.takeWhile_cons, hpos] using hr
        exact ⟨h3 j r hj (fun e => hr2 (pid, status) (by simp) e.symm),
          fun w hw => hr2 w (List.mem_cons_of_mem _ hw)⟩
      simp only [handle_sigchld, hpos, if_true, reap]
      cases hsc : sigchld_scan fork s pid status s.process_count 0 with
      | returned s2 =>
        rw [hsc] at h1
        have e : s2 = s1 := by simpa [Outcome.state?] using h1
        subst e
        obtain ⟨s3, k1, k2, k3⟩ := ih s2
        exact ⟨s3, k1, by omega, fun j r hj hr =>
          k3 j r (hfr j r hj hr).1 (hfr j r hj hr).2⟩
      | exited c s2 =>
        rw [hsc] at h1
        have e : s2 = s1 := by simpa [Outcome.state?] using h1
        subst e
        exact ⟨s2, rfl, h2, fun j r hj hr => (hfr j r hj hr).1⟩
      | child s2 =>
        rw [hsc] at h1
        have e : s2 = s1 := by simpa [Outcome.state?] using h1
        subst e
        exact ⟨s2, rfl, h2, fun j r hj hr => (hfr j r hj hr).1⟩
      | fault =>
        rw [hsc] at h1
        simp [Outcome.state?] at h1
    · simp only [handle_sigchld, hpos, if_false]
      exact ⟨s, rfl, rfl, fun _ _ h _ => h⟩

/-- C3. Whatever `waitpid` results one invocation of `handle_sigchld`
processes and however it ends, it ends with a table of the same length in
which every record whose pid equals none of the reaped pids is as it was
(same pid, same retries, same args). -/
theorem handle_sigchld_frame (fork : Nat → Int) (s : State) (waits : List (Int × Int))
    (j : Nat) (r : Process) (hj : s.processes[j]? = some r)
    (hr : ∀ w ∈ reaped waits, w.1 ≠ r.pid) :
    ∃ s1, (handle_sigchld fork s waits).state? = some s1 ∧
      s1.processes.length = s.processes.length ∧ s1.processes[j]? = some r := by
  obtain ⟨s1, h1, h2, h3⟩ := handle_sigchld_others fork waits s
  exact ⟨s1, h1, h2, h3 j r hj hr⟩

theorem handle_sigchld_frame_witness :
    ∃ s1, (handle_sigchld (fun _ => 57) table3 [(40, 9), (0, 0)]).state? = some s1 ∧
      s1.processes.length = table3.processes.length ∧
      s1.processes[1]? = some { pid := 41, args := ["cat"], retries := 3 } :=
  handle_sigchld_frame (fun _ => 57) table3 [(40, 9), (0, 0)] 1
    { pid := 41, args := ["cat"], retries := 3 } (by decide) (by decide)

/-! ## The shutdown coordinator -/

theorem sigint_kill_eq (n : Nat) (s : State) (i : Nat) (hn : i + n = s.processes.length) :
    sigint_kill s n i = .returned
      { s with trace := (s.trace ++
          ((s.processes.drop i).filter (fun p => decide (0 < p.pid))).map
            (fun p => Event.kill p.pid SIGTERM)) } := by
  induction n generalizing s i with
  | zero =>
    have : s.processes.drop i = [] := List.drop_eq_nil_of_le (by omega)
    simp [sigint_kill, this]
  | succ n ih =>
    have hi : i < s.processes.length := by omega
    have hd := List.drop_eq_getElem_cons hi
    simp only [sigint_kill, List.getElem?_eq_getElem hi]
    by_cases hp : 0 < (s.processes[i]).pid
    · rw [if_pos hp, ih (s.emit _) (i + 1) (by simpa [State.emit] using by omega), hd,
        List.filter_cons_of_pos (by simpa using hp)]
      simp only [State.emit, List.map_cons, List.append_assoc, List.singleton_append]
    · rw [if_neg hp, ih s (i + 1) (by omega), hd,
        List.filter_cons_of_neg (by simpa using hp)]

theorem sigint_free_eq (n : Nat) (s : State) (i : Nat) (hn : i + n = s.processes.length) :
    sigint_free s n i = .returned
      { s with trace := s.trace ++ (List.range' i n).map Event.free_args } := by
  induction n generalizing s i with
  | zero => simp [sigint_free]
  | succ n ih =>
    have hi : i < s.processes.length := by omega
    simp only [sigint_free, List.getElem?_eq_getElem hi]
    rw [ih (s.emit _) (i + 1) (by simpa [State.emit] using by omega)]
    simp [State.emit, List.range'_succ]

/-- C6. For every process table, `handle_sigint` logs the shutdown, sends
SIGTERM once to the pid of each record with `pid > 0`, in index order, and to
no other record, frees the table, forks nothing, and ends the supervisor with
`exit(EXIT_SUCCESS)`, where `EXIT_SUCCESS = 0`. -/
theorem handle_sigint_spec (s : State) :
    handle_sigint s = .exited 0
      { processes := s.processes,
        trace := (s.trace ++ [.log .sigint] ++
          (s.processes.filter (fun p => decide (0 < p.pid))).map
            (fun p => Event.kill p.pid SIGTERM) ++
          (List.range s.processes.length).map Event.free_args ++ [.free_processes]),
        forks := s.forks } ∧
    (∀ e ∈ (handle_sigint s).trace.drop s.trace.length, ∀ r, e ≠ .fork r) := by
  have h : handle_sigint s = .exited 0
      { processes := s.processes,
        trace := (s.trace ++ [.log .sigint] ++
          (s.processes.filter (fun p => decide (0 < p.pid))).map
            (fun p => Event.kill p.pid SIGTERM) ++
          (List.range s.processes.length).map Event.free_args ++ [.free_processes]),
        forks := s.forks } := by
    unfold handle_sigint
    simp only [State.process_count]
    rw [sigint_kill_eq _ (s.emit (.log .sigint)) 0 (by simp [State.emit])]
    simp only []
    rw [sigint_free_eq _ _ 0 (by simp [State.emit])]
    simp [State.emit, EXIT_SUCCESS, List.range_eq_range']
  refine ⟨h, ?_⟩
  rw [h]
  intro e he r hr
  subst hr
  simp [Outcome.trace, List.append_assoc] at he

/-! ## Retry counts in reachable states -/

theorem parse_processes_loop_eq (args : List String) (s : State) :
    parse_processes_loop s args =
      { s with processes := s.processes ++
          args.map (fun a => { pid := -1, args := parse_command a, retries := 0 }) } := by
  induction args generalizing s with
  | nil => simp [parse_processes_loop]
  | cons a rest ih => simp [parse_processes_loop, ih]

theorem parse_processes_eq (argv : List String) :
    parse_processes State.initial argv =
      { processes := argv.tail.map (fun a => { pid := -1, args := parse_command a, retries := 0 }),
        trace := [], forks := 0 } := by
  simp [parse_processes, parse_processes_loop_eq, State.initial]

theorem start_process_retries (fork : Nat → Int) (s : State) (i : Nat)
    (hi : i < s.processes.length)
    (ht : ∀ e ∈ s.trace, e.firstRetry = true)
    (hr : ∀ (j : Nat) (p : Process), j ≠ i → s.processes[j]? = some p → p.retries = 0) :
    (∀ e ∈ (start_process fork s i).trace, e.firstRetry = true) ∧
    ∀ s1, start_process fork s i = .returned s1 → ∀ p ∈ s1.processes, p.retries = 0 := by
  obtain ⟨p, hp⟩ : ∃ p, s.processes[i]? = some p := ⟨s.processes[i], by simp [hi]⟩
  rcases lt_trichotomy (fork s.forks) 0 with h | h | h
  · rw [start_process_failed fork s i p hp h]
    refine ⟨?_, fun s1 h1 => by simp at h1⟩
    intro e he
    simp only [Outcome.trace, List.mem_append, List.mem_cons, List.mem_singleton,
      List.not_mem_nil, or_false] at he
    rcases he with he | rfl | rfl
    · exact ht e he
    · rfl
    · rfl
  · rw [start_process_child fork s i p hp h]
    refine ⟨?_, fun s1 h1 => by simp at h1⟩
    intro e he
    simp only [Outcome.trace, List.mem_append, List.mem_cons, List.mem_singleton,
      List.not_mem_nil, or_false] at he
    rcases he with he | rfl | rfl
    · exact ht e he
    · rfl
    · rfl
  · rw [start_process_returned fork s i p hp h]
    refine ⟨?_, fun s1 h1 => ?_⟩
    · intro e he
      simp only [Outcome.trace, List.mem_append, List.mem_cons, List.mem_singleton,
        List.not_mem_nil, or_false] at he
      rcases he with he | rfl | rfl
      · exact ht e he
      · rfl
      · rfl
    · have e1 : s1 = _ := (Outcome.returned.inj h1).symm
      subst e1
      intro q hq
      obtain ⟨j, hj⟩ := List.mem_iff_getElem?.mp hq
      by_cases hji : j = i
      · subst hji
        simp [List.getElem?_set, hi] at hj
        rw [← hj]
      · have : ¬ i = j := fun e => hji e.symm
        simp only [List.getElem?_set, this, if_false] at hj
        exact hr j q hji hj

theorem restart_process_retries (fork : Nat → Int) (s : State) (i : Nat)
    (hi : i < s.processes.length)
    (ht : ∀ e ∈ s.trace, e.firstRetry = true)
    (hr : ∀ p ∈ s.processes, p.retries = 0) :
    (∀ e ∈ (restart_process fork s i).trace, e.firstRetry = true) ∧
    ∀ s1, restart_process fork s i = .returned s1 → ∀ p ∈ s1.processes, p.retries = 0 := by
  obtain ⟨p, hp⟩ : ∃ p, s.processes[i]? = some p := ⟨s.processes[i], by simp [hi]⟩
  have hp0 : p.retries = 0 := hr p (List.mem_iff_getElem?.mpr ⟨i, hp⟩)
  rw [restart_process_eq fork s i p hp, hp0]
  apply start_process_retries
  · simpa using hi
  · intro e he
    simp only [List.mem_append, List.mem_cons, List.mem_singleton,
      List.not_mem_nil, or_false] at he
    rcases he with he | rfl | rfl
    · exact ht e he
    · decide
    · show (wrapInt (0 + 1) == 1) = true
      decide
  · intro j q hji hj
    have : ¬ i = j := fun e => hji e.symm
    simp only [List.getElem?_set, this, if_false] at hj
    exact hr q (List.mem_iff_getElem?.mpr ⟨j, hj⟩)

theorem sigchld_scan_retries (fork : Nat → Int) (s : State) (pid status : Int) (n i : Nat)
    (hn : i + n ≤ s.processes.length)
    (ht : ∀ e ∈ s.trace, e.firstRetry = true)
    (hr : ∀ p ∈ s.processes, p.retries = 0) :
    (∀ e ∈ (sigchld_scan fork s pid status n i).trace, e.firstRetry = true) ∧
    ∀ s1, sigchld_scan fork s pid status n i = .returned s1 →
      ∀ p ∈ s1.processes, p.retries = 0 := by
  induction n generalizing i with
  | zero =>
    refine ⟨ht, fun s1 h1 => ?_⟩
    have e1 : s = s1 := Outcome.returned.inj h1
    subst e1
    exact hr
  | succ n ih =>
    have hi : i < s.processes.length := by omega
    simp only [sigchld_scan, List.getElem?_eq_getElem hi]
    by_cases hm : (s.processes[i]).pid = pid
    · simp only [hm, if_true]
      by_cases hst : (WIFEXITED status || WIFSIGNALED status) = true
      · simp only [hst, if_true]
        apply restart_process_retries
        · simpa [State.emit] using hi
        · intro e he
          simp only [State.emit, List.mem_append, List.mem_singleton] at he
          rcases he with he | rfl
          · exact ht e he
          · rfl
        · simpa [State.emit] using hr
      · simp only [hst]
        refine ⟨ht, fun s1 h1 => ?_⟩
        have e1 : s = s1 := by simpa using h1
        subst e1
        exact hr
    · simp only [hm, if_false]
      exact ih (i + 1) (by omega)

theorem handle_sigchld_retries (fork : Nat → Int) (waits : List (Int × Int)) (s : State)
    (ht : ∀ e ∈ s.trace, e.firstRetry = true)
    (hr : ∀ p ∈ s.processes, p.retries = 0) :
    (∀ e ∈ (handle_sigchld fork s waits).trace, e.firstRetry = true) ∧
    ∀ s1, handle_sigchld fork s waits = .returned s1 → ∀ p ∈ s1.processes, p.retries = 0 := by
  induction waits generalizing s with
  | nil =>
    refine ⟨ht, fun s1 h1 => ?_⟩
    have e1 : s = s1 := Outcome.returned.inj h1
    subst e1
    exact hr
  | cons w waits ih =>
    obtain ⟨pid, status⟩ := w
    by_cases hpos : 0 < pid
    · have hsc := sigchld_scan_retries fork s pid status s.process_count 0
        (by simp [State.process_count]) ht hr
      simp only [handle_sigchld, hpos, if_true, reap]
      cases hc : sigchld_scan fork s pid status s.process_count 0 with
      | returned s2 =>
        rw [hc] at hsc
        exact ih s2 hsc.1 (hsc.2 s2 rfl)
      | exited c s2 =>
        rw [hc] at hsc
        exact ⟨hsc.1, fun s1 h1 => by simp at h1⟩
      | child s2 =>
        rw [hc] at hsc
        exact ⟨hsc.1, fun s1 h1 => by simp at h1⟩
      | fault => exact ⟨fun e he => by simp [Outcome.trace] at he, fun s1 h1 => by simp at h1⟩
    · simp only [handle_sigchld, hpos, if_false]
      refine ⟨ht, fun s1 h1 => ?_⟩
      have e1 : s = s1 := Outcome.returned.inj h1
      subst e1
      exact hr

/-- C9. In every outcome reachable from `parse_processes` through calls of
`start_process` and invocations of `handle_sigchld`, every sleep in the
trace is of exactly 2 seconds and every restart log entry carries retry
number 1; and whenever the supervisor is back in its wait loop (the call
returned), every record holds `retries = 0`, so `restart_process` is always
entered with `retries = 0`. -/
theorem reach_retries_zero (fork : Nat → Int) (argv : List String) (o : Outcome)
    (h : Reach fork argv o) :
    (∀ e ∈ o.trace, e.firstRetry = true) ∧
    ∀ s, o = .returned s → ∀ p ∈ s.processes, p.retries = 0 := by
  induction h with
  | parsed =>
    rw [parse_processes_eq]
    refine ⟨fun e he => by simp [Outcome.trace] at he, fun s hs => ?_⟩
    have e1 : _ = s := Outcome.returned.inj hs
    subst e1
    intro p hp
    simp only [List.mem_map] at hp
    obtain ⟨a, _, rfl⟩ := hp
    rfl
  | start s i _ hi ih =>
    exact start_process_retries fork s i hi ih.1
      (fun j p _ hj => ih.2 s rfl p (List.mem_iff_getElem?.mpr ⟨j, hj⟩))
  | sigchld s waits _ ih =>
    exact handle_sigchld_retries fork waits s ih.1 (ih.2 s rfl)

/-! ## Distinct live identities -/

theorem distinct_set (s : State) (i : Nat) (r : Process) (t : List Event) (f : Nat)
    (hd : Distinct s)
    (hf : ∀ (j : Nat) (q : Process), j ≠ i → s.processes[j]? = some q → q.pid ≠ r.pid) :
    Distinct { processes := s.processes.set i r, trace := t, forks := f } := by
  intro a b p q ha hb hpos heq
  simp only [List.getElem?_set] at ha hb
  by_cases hai : i = a
  · by_cases hbi : i = b
    · rw [← hai, ← hbi]
    · exfalso
      rw [if_pos hai] at ha
      rw [if_neg hbi] at hb
      split at ha
      · cases ha
        exact hf b q (fun e => hbi e.symm) hb heq.symm
      · cases ha
  · by_cases hbi : i = b
    · exfalso
      rw [if_neg hai] at ha
      rw [if_pos hbi] at hb
      split at hb
      · cases hb
        exact hf a p (fun e => hai e.symm) ha heq
      · cases hb
    · rw [if_neg hai] at ha
      rw [if_neg hbi] at hb
      exact hd a b p q ha hb hpos heq

theorem start_process_distinct (fork : Nat → Int) (s : State) (i : Nat)
    (hi : i < s.processes.length) (hd : Distinct s) (hf : Fresh s i (fork s.forks)) :
    ∃ s1, start_process fork s i = .returned s1 ∧ Distinct s1 := by
  obtain ⟨p, hp⟩ : ∃ p, s.processes[i]? = some p := ⟨s.processes[i], by simp [hi]⟩
  rw [start_process_returned fork s i p hp hf.1]
  exact ⟨_, rfl, distinct_set s i _ _ _ hd hf.2⟩

theorem restart_process_returned (fork : Nat → Int) (s : State) (i : Nat) (p : Process)
    (hp : s.processes[i]? = some p) (hpos : 0 < fork s.forks) :
    restart_process fork s i = .returned
      { processes := s.processes.set i { pid := fork s.forks, args := p.args, retries := 0 },
        trace := s.trace ++
          [.sleep (toUnsigned (wrapInt (BACKOFF_TIME * wrapInt (p.retries + 1)))),
           .log (.restarting i p.args.head? (wrapInt (p.retries + 1))),
           .fork (fork s.forks), .log (.started i p.args.head? (fork s.forks))],
        forks := s.forks + 1 } := by
  have hi : i < s.processes.length := (List.getElem?_eq_some_iff.mp hp).1
  rw [restart_process_eq fork s i p hp]
  have h := start_process_returned fork
    { processes := s.processes.set i { p with retries := wrapInt (p.retries + 1) },
      trace := s.trace ++
        [.sleep (toUnsigned (wrapInt (BACKOFF_TIME * wrapInt (p.retries + 1)))),
         .log (.restarting i p.args.head? (wrapInt (p.retries + 1)))],
      forks := s.forks } i { p with retries := wrapInt (p.retries + 1) }
    (by simp [List.getElem?_set, hi]) hpos
  rw [h]
  simp

theorem sigchld_scan_distinct (fork : Nat → Int) (s : State) (pid status : Int)
    (hd : Distinct s) (hf : ReapFresh fork s pid status) (n i : Nat)
    (hn : i + n ≤ s.processes.length)
    (hfirst : ∀ (k : Nat) (q : Process), k < i → s.processes[k]? = some q → q.pid ≠ pid) :
    ∃ s1, sigchld_scan fork s pid status n i = .returned s1 ∧ Distinct s1 := by
  induction n generalizing i with
  | zero => exact ⟨s, rfl, hd⟩
  | succ n ih =>
    have hi : i < s.processes.length := by omega
    have hget : s.processes[i]? = some s.processes[i] := List.getElem?_eq_getElem hi
    simp only [sigchld_scan, hget]
    by_cases hm : (s.processes[i]).pid = pid
    · simp only [hm, if_true]
      by_cases hst : (WIFEXITED status || WIFSIGNALED status) = true
      · simp only [hst, if_true]
        have hfr := hf i _ hget hm hfirst hst
        rw [restart_process_returned fork (s.emit _) i s.processes[i]
          (by simp [State.emit]) (by simpa [State.emit] using hfr.1)]
        exact ⟨_, rfl, distinct_set s i _ _ _ hd hfr.2⟩
      · simp only [hst]
        exact ⟨s, rfl, hd⟩
    · simp only [hm, if_false]
      refine ih (i + 1) (by omega) (fun k q hk hq => ?_)
      by_cases hki : k = i
      · subst hki
        rw [hget] at hq
        cases hq
        exact hm
      · exact hfirst k q (by omega) hq

theorem handle_sigchld_distinct (fork : Nat → Int) (waits : List (Int × Int)) (s : State)
    (hd : Distinct s) (hf : SigchldFresh fork s waits) :
    ∃ s1, handle_sigchld fork s waits = .returned s1 ∧ Distinct s1 := by
  induction waits generalizing s with
  | nil => exact ⟨s, rfl, hd⟩
  | cons w waits ih =>
    obtain ⟨pid, status⟩ := w
    by_cases hpos : 0 < pid
    · obtain ⟨hf1, hf2⟩ := hf hpos
      obtain ⟨s1, h1, h2⟩ := sigchld_scan_distinct fork s pid status hd hf1
        s.process_count 0 (by simp [State.process_count]) (fun k q hk => by omega)
      simp only [handle_sigchld, hpos, if_true, reap, h1]
      exact ih s1 h2 (hf2 s1 h1)
    · simp only [handle_sigchld, hpos, if_false]
      exact ⟨s, rfl, hd⟩

/-- C8. In every outcome reachable from `parse_processes` through calls of
`start_process` and invocations of `handle_sigchld`, each fork returning a
positive pid different from the pid currently held by every other record,
the supervisor is back in its wait loop with a table in which no two
distinct indices hold the same live identity (`pid > 0`). -/
theorem reach_distinct_identities (fork : Nat → Int) (argv : List String) (o : Outcome)
    (h : FreshReach fork argv o) :
    ∃ s, o = .returned s ∧ Distinct s := by
  induction h with
  | parsed =>
    refine ⟨_, rfl, ?_⟩
    rw [parse_processes_eq]
    intro i j p q hi _ hpos _
    exfalso
    have hmem : p ∈ List.map (fun a => ({ pid := -1, args := parse_command a, retries := 0 } : Process))
        argv.tail := List.mem_iff_getElem?.mpr ⟨i, hi⟩
    simp only [List.mem_map] at hmem
    obtain ⟨a, _, rfl⟩ := hmem
    simp at hpos
  | start s i _ hi hf ih =>
    obtain ⟨s0, e0, hd⟩ := ih
    have e1 : s0 = s := (Outcome.returned.inj e0).symm
    subst e1
    exact start_process_distinct fork s0 i hi hd hf
  | sigchld s waits _ hf ih =>
    obtain ⟨s0, e0, hd⟩ := ih
    have e1 : s0 = s := (Outcome.returned.inj e0).symm
    subst e1
    exact handle_sigchld_distinct fork waits s0 hd hf

/-! ## Startup -/

theorem set_length_append (pre : List Process) (p r : Process) (ps : List Process) :
    (pre ++ p :: ps).set pre.length r = pre ++ r :: ps := by
  induction pre with
  | nil => rfl
  | cons a pre ih => simp [ih]

theorem start_loop_eq (fork : Nat → Int) (post : List Process) (pre : List Process)
    (t : List Event) (f : Nat) (h : ∀ k, k < post.length → 0 < fork (f + k)) :
    start_loop fork { processes := pre ++ post, trace := t, forks := f } post.length pre.length =
      .returned { processes := pre ++ startedTable fork f post,
                  trace := t ++ startedTrace fork f pre.length post,
                  forks := f + post.length } := by
  induction post generalizing pre t f with
  | nil => simp [start_loop, startedTable, startedTrace]
  | cons p ps ih =>
    have hget : (pre ++ p :: ps)[pre.length]? = some p := by
      rw [List.getElem?_append_right (Nat.le_refl _)]
      simp
    have h0 : 0 < fork f := by simpa using h 0 (by simp)
    simp only [List.length_cons, start_loop]
    rw [start_process_returned fork _ pre.length p hget h0]
    simp only [set_length_append]
    have e : pre ++ ({ pid := fork f, args := p.args, retries := 0 } : Process) :: ps =
        (pre ++ [{ pid := fork f, args := p.args, retries := 0 }]) ++ ps := by simp
    have ih2 := ih (pre ++ [{ pid := fork f, args := p.args, retries := 0 }])
      (t ++ [.fork (fork f), .log (.started pre.length p.args.head? (fork f))]) (f + 1)
      (fun k hk => by
        have := h (k + 1) (by simpa using hk)
        rwa [show f + 1 + k = f + (k + 1) by omega])
    rw [e]
    simp only [List.length_append, List.length_singleton] at ih2
    rw [ih2]
    simp [startedTable, startedTrace, Nat.add_assoc, Nat.add_comm 1]

theorem startedTable_getElem? (fork : Nat → Int) (l : List Process) (f k : Nat) :
    (startedTable fork f l)[k]? =
      (l[k]?).map (fun p => { pid := fork (f + k), args := p.args, retries := 0 }) := by
  induction l generalizing f k with
  | nil => simp [startedTable]
  | cons p ps ih =>
    cases k with
    | zero => simp [startedTable]
    | succ k =>
      simp only [startedTable, List.getElem?_cons_succ, ih]
      rw [show f + 1 + k = f + (k + 1) by omega]

theorem startedTable_length (fork : Nat → Int) (l : List Process) (f : Nat) :
    (startedTable fork f l).length = l.length := by
  induction l generalizing f with
  | nil => rfl
  | cons p ps ih => simp [startedTable, ih]

/-- C5 (amended). For `N ≥ 1` command specifications (`argc = N + 1`):
`parse_processes` builds a table of exactly `N` records, record `k` holding
the parse of `argv[k + 1]` with `pid = -1` and `retries = 0`; `main` then
runs its start loop over the indices `0 .. N-1` of that table; when the `N`
fork results are positive the loop makes exactly `N` forks, one
`start_process` per index in order (fork, then the log entry of that index),
and leaves record `k` holding the `k`-th fork result; when these results are
moreover pairwise distinct, so are the identities of the `N` records. -/
theorem main_startup (fork : Nat → Int) (argv : List String) (N : Nat)
    (hN : 1 ≤ N) (hlen : argv.length = N + 1) :
    parse_processes State.initial argv =
      { processes := argv.tail.map
          (fun a => { pid := -1, args := parse_command a, retries := 0 }),
        trace := [], forks := 0 } ∧
    (parse_processes State.initial argv).processes.length = N ∧
    main fork argv = start_loop fork (parse_processes State.initial argv) N 0 ∧
    ((∀ k, k < N → 0 < fork k) →
      ∃ s, main fork argv = .returned s ∧ s.processes.length = N ∧ s.forks = N ∧
        s.trace = startedTrace fork 0 0 (parse_processes State.initial argv).processes ∧
        (∀ (k : Nat) (a : String), argv[k + 1]? = some a →
          s.processes[k]? = some { pid := fork k, args := parse_command a, retries := 0 }) ∧
        ((∀ i j, i < N → j < N → fork i = fork j → i = j) →
          ∀ (i j : Nat) (p q : Process), s.processes[i]? = some p →
            s.processes[j]? = some q → p.pid = q.pid → i = j)) := by
  obtain ⟨a0, rest, rfl⟩ : ∃ a0 rest, argv = a0 :: rest := by
    cases argv with
    | nil => simp at hlen
    | cons a0 rest => exact ⟨a0, rest, rfl⟩
  have hrest : rest.length = N := by simpa using hlen
  have hparse := parse_processes_eq (a0 :: rest)
  simp only [List.tail_cons] at hparse
  have hplen : (parse_processes State.initial (a0 :: rest)).processes.length = N := by
    rw [hparse]
    simpa using hrest
  have hmain : main fork (a0 :: rest) =
      start_loop fork (parse_processes State.initial (a0 :: rest)) N 0 := by
    have : ¬ (a0 :: rest).length < 2 := by
      simp only [List.length_cons]
      omega
    simp only [main, this, if_false, State.process_count, hplen]
  refine ⟨hparse, hplen, hmain, fun hpos => ?_⟩
  have hloop := start_loop_eq fork
    (rest.map (fun a => ({ pid := -1, args := parse_command a, retries := 0 } : Process)))
    [] [] 0 (fun k hk => by
      have : k < N := by simpa [hrest] using hk
      simpa using hpos k this)
  simp only [List.nil_append, List.length_map, List.length_nil, hrest, Nat.zero_add] at hloop
  rw [hmain, hparse, hloop]
  have hpt : ∀ (k : Nat) (a : String), (a0 :: rest)[k + 1]? = some a →
      (startedTable fork 0 (rest.map
        (fun a => ({ pid := -1, args := parse_command a, retries := 0 } : Process))))[k]? =
        some { pid := fork k, args := parse_command a, retries := 0 } := by
    intro k a ha
    simp only [List.getElem?_cons_succ] at ha
    simp [startedTable_getElem?, ha]
  have hpid : ∀ (i : Nat) (p : Process), (startedTable fork 0 (rest.map
        (fun a => ({ pid := -1, args := parse_command a, retries := 0 } : Process))))[i]? =
        some p → i < N ∧ p.pid = fork i := by
    intro i p hi
    have hlt : i < N := by
      have := (List.getElem?_eq_some_iff.mp hi).1
      simpa [startedTable_length, hrest] using this
    have hr : rest[i]? = some rest[i] := List.getElem?_eq_getElem (by omega)
    have := hpt i rest[i] (by simp)
    rw [this] at hi
    cases hi
    exact ⟨hlt, rfl⟩
  refine ⟨_, rfl, ?_, rfl, rfl, hpt, fun hinj i j p q hi hj hpq => ?_⟩
  · simp [startedTable_length, hrest]
  · obtain ⟨hi1, hi2⟩ := hpid i p hi
    obtain ⟨hj1, hj2⟩ := hpid j q hj
    exact hinj i j hi1 hj1 (by rw [← hi2, ← hj2, hpq])

theorem main_startup_witness :
    parse_processes State.initial argv2 =
      { processes := argv2.tail.map
          (fun a => { pid := -1, args := parse_command a, retries := 0 }),
        trace := [], forks := 0 } ∧
    (parse_processes State.initial argv2).processes.length = 2 ∧
    main forkSeq argv2 = start_loop forkSeq (parse_processes State.initial argv2) 2 0 ∧
    ((∀ k, k < 2 → 0 < forkSeq k) →
      ∃ s, main forkSeq argv2 = .returned s ∧ s.processes.length = 2 ∧ s.forks = 2 ∧
        s.trace = startedTrace forkSeq 0 0 (parse_processes State.initial argv2).processes ∧
        (∀ (k : Nat) (a : String), argv2[k + 1]? = some a →
          s.processes[k]? = some { pid := forkSeq k, args := parse_command a, retries := 0 }) ∧
        ((∀ i j, i < 2 → j < 2 → forkSeq i = forkSeq j → i = j) →
          ∀ (i j : Nat) (p q : Process), s.processes[i]? = some p →
            s.processes[j]? = some q → p.pid = q.pid → i = j)) :=
  main_startup forkSeq argv2 2 (by decide) (by decide)

/-- C5, as stated, fails when a fork fails: with two commands and a first
fork returning -1, `start_process(0)` ends the supervisor with
`exit(EXIT_FAILURE)`; one fork has been made, `start_process(1)` is never
called, and no record has been started. -/
theorem main_startup_fork_failure :
    main forkFail argv2 = .exited 1
      { processes := [{ pid := -1, args := ["sleep", "60"], retries := 0 },
                      { pid := -1, args := ["cat"], retries := 0 }],
        trace := [.fork (-1), .perror "fork error"], forks := 1 } ∧
    (main forkFail argv2).state?.map State.forks ≠ some 2 ∧
    ¬ ∃ s, main forkFail argv2 = .returned s := by
  have h : main forkFail argv2 = .exited 1
      { processes := [{ pid := -1, args := ["sleep", "60"], retries := 0 },
                      { pid := -1, args := ["cat"], retries := 0 }],
        trace := [.fork (-1), .perror "fork error"], forks := 1 } := by decide
  refine ⟨h, ?_, ?_⟩
  · rw [h]
    decide
  · rintro ⟨s, hs⟩
    rw [h] at hs
    cases hs

/-- C2, evaluated. On the single command `true`, every instance exiting at
once, the three restart cycles log the retry numbers 1, 1, 1 (not 1, 2, 3)
and sleep 2, 2, 2 seconds, and the run ends with `retries = 0`. -/
theorem immediate_exit_retry_numbers :
    retryNumbers immediateExitRun.trace = [1, 1, 1] ∧
    sleeps immediateExitRun.trace = [2, 2, 2] ∧
    immediateExitRun = .returned
      { processes := [{ pid := 103, args := ["true"], retries := 0 }],
        trace := immediateExitRun.trace, forks := 4 } := by
  decide

/-- C10, evaluated. For a command of exactly ten tokens the loop of
`parse_command` ends with `arg_count = 10 = max_args`: the terminator
`args[arg_count] = NULL` is written at index 10 of an array of 10 entries. -/
theorem parse_command_terminator_overflow :
    (parse_command_locals "a;b;c;d;e;f;g;h;i;j").arg_count = 10 ∧
    (parse_command_locals "a;b;c;d;e;f;g;h;i;j").max_args = 10 ∧
    ¬ inCapacity (parse_command_locals "a;b;c;d;e;f;g;h;i;j").arg_count
        (parse_command_locals "a;b;c;d;e;f;g;h;i;j").max_args := by
  decide

/-! ## The sample run on two commands -/

theorem fresh_of_forall_mem (s : State) (i : Nat) (pid : Int) (hpos : 0 < pid)
    (h : ∀ q ∈ s.processes, q.pid ≠ pid) : Fresh s i pid :=
  ⟨hpos, fun j q _ hq => h q (List.mem_iff_getElem?.mpr ⟨j, hq⟩)⟩

theorem reach_started2 : Reach forkSeq argv2 (.returned started2) := by
  have h0 : Reach forkSeq argv2 (.returned (parse_processes State.initial argv2)) := Reach.parsed
  have h1 := Reach.start _ 0 h0 (by decide)
  rw [show start_process forkSeq (parse_processes State.initial argv2) 0 = .returned started2a
    by decide] at h1
  have h2 := Reach.start _ 1 h1 (by decide)
  rwa [show start_process forkSeq started2a 1 = .returned started2 by decide] at h2

theorem freshReach_started2 : FreshReach forkSeq argv2 (.returned started2) := by
  have h0 : FreshReach forkSeq argv2 (.returned (parse_processes State.initial argv2)) :=
    FreshReach.parsed
  have h1 := FreshReach.start _ 0 h0 (by decide)
    (fresh_of_forall_mem _ 0 _ (by decide) (by decide))
  rw [show start_process forkSeq (parse_processes State.initial argv2) 0 = .returned started2a
    by decide] at h1
  have h2 := FreshReach.start _ 1 h1 (by decide)
    (fresh_of_forall_mem _ 1 _ (by decide) (by decide))
  rwa [show start_process forkSeq started2a 1 = .returned started2 by decide] at h2

theorem sigchldFresh_started2 : SigchldFresh forkSeq started2 [(100, 0)] := by
  intro _
  exact ⟨fun i _ _ _ _ _ => fresh_of_forall_mem _ i _ (by decide) (by decide),
    fun _ _ => trivial⟩

theorem reach_retries_zero_witness :
    (∀ e ∈ (handle_sigchld forkSeq started2 [(100, 0), (102, 9), (0, 0)]).trace,
      e.firstRetry = true) ∧
    ∀ s, handle_sigchld forkSeq started2 [(100, 0), (102, 9), (0, 0)] = .returned s →
      ∀ p ∈ s.processes, p.retries = 0 :=
  reach_retries_zero forkSeq argv2 _ (Reach.sigchld started2 _ reach_started2)

theorem reach_distinct_identities_witness :
    ∃ s, handle_sigchld forkSeq started2 [(100, 0)] = .returned s ∧ Distinct s :=
  reach_distinct_identities forkSeq argv2 _
    (FreshReach.sigchld started2 _ freshReach_started2 sigchldFresh_started2)

end Supervisor
